import Mathlib

/-!
# Schema metadata of `gen/drivers/table.go`

A shallow embedding of the table metadata, the lookup functions, the
relationship resolver and the filter compilers of `gen/drivers/table.go`,
with the properties proved about them.

Go strings are embedded as Lean `String` (a sequence of characters where Go has
a sequence of bytes; the functions below only compare, slice at a suffix boundary
and concatenate), Go slices that are only read as `List`. A slice that is handed
to `append` is embedded with its backing array (`Slice`), because `append`
writes into spare capacity. Go maps are embedded as
key-unique entry lists (`GoMap`) whose list order stands for the iteration order
of one `range` loop.
-/

set_option autoImplicit false

namespace Drivers

/-! ## Strings -/

/-- Go `strings.HasSuffix(s, suffix)`:
`len(s) >= len(suffix) && s[len(s)-len(suffix):] == suffix`. -/
def HasSuffix (s suffix : String) : Bool :=
  decide (suffix.length ≤ s.length) &&
    (s.data.drop (s.length - suffix.length) == suffix.data)

/-- Go `strings.TrimSuffix(s, suffix)`: `s[:len(s)-len(suffix)]` when `s` has the
suffix, `s` unchanged otherwise. -/
def TrimSuffix (s suffix : String) : String :=
  if HasSuffix s suffix then String.mk (s.data.take (s.length - suffix.length)) else s

/-! ## Data model -/

/-- Modelled from the spec: the declaration of `Column` is not in `table.go`.
The spec gives a column a name, a declared type tag and a generated flag; these
are the three fields `table.go` reads (`Name`, `Type`, `Generated`). The field
`Type` is spelled `Type_`, `Type` being reserved. -/
structure Column where
  Name : String
  Type_ : String
  Generated : Bool
  deriving DecidableEq, Repr

/-- Modelled from the spec: the declaration of `Constraint` is not in `table.go`.
A named constraint over a list of columns. -/
structure Constraint where
  Name : String
  Columns : List String
  deriving DecidableEq, Repr

/-- Modelled from the spec: the declaration of `ForeignKey` is not in `table.go`.
An edge naming local columns and a foreign table with its columns. -/
structure ForeignKey where
  Name : String
  Columns : List String
  ForeignTable : String
  ForeignColumns : List String
  deriving DecidableEq, Repr

/-- The `Constraints` struct: optional primary key, foreign keys, uniques. -/
structure Constraints where
  Primary : Option Constraint
  Foreign : List ForeignKey
  Uniques : List Constraint
  deriving DecidableEq, Repr

/-- Modelled from the spec: the declaration of `orm.Relationship` is not in
`table.go`. The spec describes a named, directed edge between a local and a
foreign table whose accessors `Local()` and `Foreign()` return the two table
keys; the two keys are stored as fields here. -/
structure Relationship where
  Name : String
  LocalKey : String
  ForeignKey : String
  deriving DecidableEq, Repr

/-- The accessor `r.Local()`. -/
def Relationship.Local (r : Relationship) : String := r.LocalKey

/-- The accessor `r.Foreign()`. -/
def Relationship.Foreign (r : Relationship) : String := r.ForeignKey

/-- The zero value `orm.Relationship{}`. -/
def Relationship.zero : Relationship := ⟨"", "", ""⟩

/-- The `Table` struct. -/
structure Table where
  Key : String
  Schema : String
  Name : String
  Columns : List Column
  Constraints : Constraints
  Relationships : List Relationship
  deriving DecidableEq, Repr

/-- The zero value of `Table` (`var fTable Table`). -/
def Table.zero : Table := ⟨"", "", "", [], ⟨none, [], []⟩, []⟩

/-! ## Lookup -/

/-- The function `GetTable(tables, name)`: the loop returns the first table whose `Key` is
`name`; falling out of the loop panics with the formatted message, which is
the `Except.error` value here. -/
def GetTable : List Table → String → Except String Table
  | [], name => Except.error ("could not find table name: " ++ name)
  | t :: ts, name => if t.Key = name then Except.ok t else GetTable ts name

/-- The arguments of the `fmt.Sprintf` call whose result `GetColumn` panics with:
the table key, the column name asked for and the table's columns. The rendering
of the format string `could not find column name: %q.%q in %#v` is not
modelled. -/
structure ColumnNotFound where
  Key : String
  Name : String
  Columns : List Column
  deriving DecidableEq, Repr

/-- Lines 42-46 of `GetColumn`: the loop returns the first column whose `Name` is
`name`; `none` stands for falling out of the loop. -/
def getColumnLoop : List Column → String → Option Column
  | [], _ => none
  | c :: cs, name => if c.Name = name then some c else getColumnLoop cs name

/-- The method `t.GetColumn(name)`: the column the loop returns, or the panic of
line 48 as the `Except.error` value. -/
def Table.GetColumn (t : Table) (name : String) : Except ColumnNotFound Column :=
  match getColumnLoop t.Columns name with
  | some c => Except.ok c
  | none => Except.error ⟨t.Key, name, t.Columns⟩

/-- Lines 53-58 of `NonGeneratedColumns`: the loop appends every
column that is not generated to `cols`, which starts empty with capacity
`len(t.Columns)`, so no append reallocates or aliases. -/
def nonGeneratedLoop : List Column → List Column → List Column
  | [], cols => cols
  | c :: cs, cols =>
    if c.Generated then nonGeneratedLoop cs cols else nonGeneratedLoop cs (cols ++ [c])

/-- The method `t.NonGeneratedColumns()`. -/
def Table.NonGeneratedColumns (t : Table) : List Column :=
  nonGeneratedLoop t.Columns []

/-- Lines 68-73 of `CanSoftDelete`: return true at the first column with the
name and the type `null.Time`, false when the loop ends. -/
def canSoftDeleteLoop : List Column → String → Bool
  | [], _ => false
  | column :: cs, deleteColumn =>
    if column.Name = deleteColumn ∧ column.Type_ = "null.Time" then true
    else canSoftDeleteLoop cs deleteColumn

/-- The method `t.CanSoftDelete(deleteColumn)`: the empty name defaults to `deleted_at`. -/
def Table.CanSoftDelete (t : Table) (deleteColumn : String) : Bool :=
  let deleteColumn := if deleteColumn = "" then "deleted_at" else deleteColumn
  canSoftDeleteLoop t.Columns deleteColumn

/-! ## Relationship resolver -/

/-- Lines 78-84 of `GetRelationshipInverse`: `fTable` starts as the zero table
and is set to the first table whose `Key` equals the foreign key, if any. -/
def findForeignTable : List Table → String → Table
  | [], _ => Table.zero
  | t :: ts, foreign => if t.Key = foreign then t else findForeignTable ts foreign

/-- Lines 91-98 of `GetRelationshipInverse`: the name searched for. On a
self-join the suffix is trimmed and appended again when it was present. -/
def toMatch (SelfJoinSuffix : String) (r : Relationship) : String :=
  if r.Local = r.Foreign then
    let hadSuffix := HasSuffix r.Name SelfJoinSuffix
    let trimmed := TrimSuffix r.Name SelfJoinSuffix
    if hadSuffix then trimmed ++ SelfJoinSuffix else trimmed
  else r.Name

/-- Lines 100-106 of `GetRelationshipInverse`: the first relationship with the
searched name, or the zero value. -/
def scanRelationships : List Relationship → String → Relationship
  | [], _ => Relationship.zero
  | r2 :: rs, name => if name = r2.Name then r2 else scanRelationships rs name

/-- Name-indexed mapping of the spec's design note, which says the linear scan
may be replaced by it: the map obtained by storing every relationship of the
list under its `Name`, in list order, so that a later relationship replaces an
earlier one of the same name. `nameIndex rs n` is the entry under `n`. -/
def nameIndex : List Relationship → String → Option Relationship
  | [], _ => none
  | r :: rs, n =>
    match nameIndex rs n with
    | some later => some later
    | none => if n = r.Name then some r else none

/-- The method `t.GetRelationshipInverse(tables, r)`. The constant `SelfJoinSuffix` is
declared outside `table.go` and is a parameter. The receiver `t` is shadowed by
the loop variable and never read. -/
def Table.GetRelationshipInverse (SelfJoinSuffix : String) (_t : Table)
    (tables : List Table) (r : Relationship) : Relationship :=
  let fTable := findForeignTable tables r.Foreign
  if fTable.Key = "" then Relationship.zero
  else scanRelationships fTable.Relationships (toMatch SelfJoinSuffix r)

/-! ## Filters -/

/-- A Go `[]string` value together with its backing array: `elems` are the cells
`s[0:len(s)]`, `spare` the cells between `len(s)` and `cap(s)`. -/
structure Slice where
  elems : List String
  spare : List String
  deriving DecidableEq, Repr

/-- The nil slice. -/
def Slice.nil : Slice := ⟨[], []⟩

/-- A slice without spare capacity, as a composite literal builds it. -/
def Slice.lit (l : List String) : Slice := ⟨l, []⟩

/-- A Go `map[string][]string`: entries with pairwise distinct keys. The order of
`entries` is the order in which one `range` loop visits them. Distinct entries
have disjoint backing arrays. -/
structure GoMap where
  entries : List (String × Slice)
  nodup : (entries.map Prod.fst).Nodup

/-- The two-valued lookup `v, ok := m[k]`. -/
def GoMap.find? (m : GoMap) (k : String) : Option Slice := m.entries.lookup k

/-- The lookup `m[k]`: the nil slice for a missing key. -/
def GoMap.get (m : GoMap) (k : String) : Slice := (m.find? k).getD Slice.nil

/-- The keys of a map, in iteration order. -/
def GoMap.keys (m : GoMap) : List String := m.entries.map Prod.fst

/-- The `Filter` struct, with both slices read out as lists. -/
structure Filter where
  Only : List String
  Except : List String
  deriving DecidableEq, Repr

/-- Lines 118-120 of `ParseTableFilter`: every key of `only` is appended. -/
def tableOnlyLoop : List (String × Slice) → List String → List String
  | [], acc => acc
  | (name, _) :: rest, acc => tableOnlyLoop rest (acc ++ [name])

/-- Lines 122-127 of `ParseTableFilter`: a key of `except` is appended when
`len(cols) == 0`. -/
def tableExceptLoop : List (String × Slice) → List String → List String
  | [], acc => acc
  | (name, cols) :: rest, acc =>
    if cols.elems.length = 0 then tableExceptLoop rest (acc ++ [name])
    else tableExceptLoop rest acc

/-- The function `ParseTableFilter(only, except)`. Both fields start nil and grow by `append`
on the function's own slice. -/
def ParseTableFilter (only except : GoMap) : Filter :=
  ⟨tableOnlyLoop only.entries [], tableExceptLoop except.entries []⟩

/-- A slice built inside `ParseColumnFilter` by `append(global.X, ...)`: either
the first `n` cells of the backing array of the wildcard slice `global.X`, or a
newly allocated array. -/
inductive SliceRef where
  | view (n : Nat)
  | fresh (elems : List String)
  deriving DecidableEq, Repr

/-- Go `append(s, xs...)` for the slice `s` made of the first `len` cells of the
backing array `cells` (so `cap(s) = cells.length`). When `len + len(xs)` fits the
capacity the elements are written into the array after position `len` and the
result shares the array; otherwise a new array is allocated. Returns the array
after the call and the resulting slice. -/
def appendTo (cells : List String) (len : Nat) (xs : List String) :
    List String × SliceRef :=
  if len + xs.length ≤ cells.length then
    (cells.take len ++ xs ++ cells.drop (len + xs.length), SliceRef.view (len + xs.length))
  else
    (cells, SliceRef.fresh (cells.take len ++ xs))

/-- A `Filter` value whose two slices were built by `append` on the wildcard
slices. -/
structure FilterRef where
  Only : SliceRef
  Except : SliceRef
  deriving DecidableEq, Repr

/-- The `ColumnFilter` map returned by `ParseColumnFilter`, with the memory its
slices may point into: the backing arrays of `only["*"]` and `except["*"]`. -/
structure ColumnFilter where
  onlyCells : List String
  exceptCells : List String
  entries : List (String × FilterRef)
  deriving DecidableEq, Repr

/-- The map assignment `colFilter[k] = v`: an existing entry is replaced, a new
key gets a new entry. -/
def mapAssign : List (String × FilterRef) → String → FilterRef → List (String × FilterRef)
  | [], k, v => [(k, v)]
  | (k', v') :: rest, k, v =>
    if k' = k then (k, v) :: rest else (k', v') :: mapAssign rest k v

/-- Lines 139-144 of `ParseColumnFilter`. `gOnlyLen` and `gExceptLen` are
`len(global.Only)` and `len(global.Except)`; the slice headers in `global` never
change, only the arrays behind them do. -/
def columnFilterLoop (only except : GoMap) (gOnlyLen gExceptLen : Nat) :
    List String → ColumnFilter → ColumnFilter
  | [], st => st
  | t :: ts, st =>
    let o := appendTo st.onlyCells gOnlyLen (only.get t).elems
    let e := appendTo st.exceptCells gExceptLen (except.get t).elems
    columnFilterLoop only except gOnlyLen gExceptLen ts
      ⟨o.1, e.1, mapAssign st.entries t ⟨o.2, e.2⟩⟩

/-- The function `ParseColumnFilter(tables, only, except)`. The loop state starts
with the backing arrays of `only["*"]` and `except["*"]` (two different arrays)
and the empty map. -/
def ParseColumnFilter (tables : List String) (only except : GoMap) : ColumnFilter :=
  let gOnly := only.get "*"
  let gExcept := except.get "*"
  columnFilterLoop only except gOnly.elems.length gExcept.elems.length tables
    ⟨gOnly.elems ++ gOnly.spare, gExcept.elems ++ gExcept.spare, []⟩

/-- The elements a slice shows when it is read against the array `cells`. -/
def SliceRef.read (cells : List String) : SliceRef → List String
  | SliceRef.view n => cells.take n
  | SliceRef.fresh elems => elems

/-- Reading `colFilter[t]` from the returned map: `none` when `t` has no entry,
otherwise the two slices as the caller sees them. -/
def ColumnFilter.get (cf : ColumnFilter) (t : String) : Option Filter :=
  (cf.entries.lookup t).map
    (fun f => ⟨f.Only.read cf.onlyCells, f.Except.read cf.exceptCells⟩)

/-! ## Example data -/

/-- A relationship `posts -> users` named `author`. -/
def exRel : Relationship := ⟨"author", "posts", "users"⟩

/-- The same-named relationship as stored on the `users` side. -/
def exRelBack : Relationship := ⟨"author", "users", "posts"⟩

/-- A second relationship of the `users` table. -/
def exRelOther : Relationship := ⟨"editor", "users", "posts"⟩

/-- A snapshot with two tables. -/
def exTables : List Table :=
  [⟨"posts", "", "posts", [], ⟨none, [], []⟩, [exRel]⟩,
   ⟨"users", "", "users", [], ⟨none, [], []⟩, [exRelOther, exRelBack]⟩]

/-- A relationship whose foreign key is the empty string. -/
def exRelEmptyForeign : Relationship := ⟨"author", "posts", ""⟩

/-- A relationship stored on a table whose key is the empty string. -/
def exRelOnEmpty : Relationship := ⟨"author", "", "posts"⟩

/-- A snapshot whose only table has the empty string as key. -/
def exTablesEmptyKey : List Table :=
  [⟨"", "", "anon", [], ⟨none, [], []⟩, [exRelOnEmpty]⟩]

/-- A snapshot in which two tables carry the key `users`; only the second one
has a relationship named `author`. -/
def exTablesDupKey : List Table :=
  [⟨"users", "", "users", [], ⟨none, [], []⟩, []⟩,
   ⟨"users", "", "users", [], ⟨none, [], []⟩, [exRelBack]⟩]

/-- A self-join relationship whose name carries the suffix. -/
def exSelfRel : Relationship := ⟨"parent__self_join_reverse", "users", "users"⟩

/-- A snapshot with a self-joined table. -/
def exSelfTables : List Table :=
  [⟨"users", "", "users", [], ⟨none, [], []⟩, [⟨"parent", "users", "users"⟩, exSelfRel]⟩]

/-- A self-join on a table whose key is the empty string. -/
def exSelfRelEmpty : Relationship := ⟨"parent", "", ""⟩

/-- A snapshot whose only table has the empty key and holds `exSelfRelEmpty`. -/
def exSelfTablesEmptyKey : List Table :=
  [⟨"", "", "anon", [], ⟨none, [], []⟩, [exSelfRelEmpty]⟩]

/-- The `users` table of `exTables` with its two relationships swapped. -/
def exTablesSwapped : List Table :=
  [⟨"posts", "", "posts", [], ⟨none, [], []⟩, [exRel]⟩,
   ⟨"users", "", "users", [], ⟨none, [], []⟩, [exRelBack, exRelOther]⟩]

/-- A table with two columns named `id`. -/
def exTwoIdTable : Table :=
  ⟨"t", "", "t", [⟨"name", "string", false⟩, ⟨"id", "int", false⟩, ⟨"id", "uuid", true⟩],
    ⟨none, [], []⟩, []⟩

/-- Three columns, the middle one generated. -/
def exColumns : List Column :=
  [⟨"a", "int", false⟩, ⟨"b", "int", true⟩, ⟨"c", "string", false⟩]

/-- A table made of `exColumns`. -/
def exColumnsTable : Table := ⟨"t", "", "t", exColumns, ⟨none, [], []⟩, []⟩

/-- A table with a `deleted_at` column of type `null.Time`. -/
def exSoftTable : Table :=
  ⟨"t", "", "t", [⟨"id", "int", false⟩, ⟨"deleted_at", "null.Time", false⟩],
    ⟨none, [], []⟩, []⟩

/-- A table whose `deleted_at` column has another type. -/
def exWrongTypeTable : Table :=
  ⟨"t", "", "t", [⟨"deleted_at", "time.Time", false⟩, ⟨"removed", "null.Time", false⟩],
    ⟨none, [], []⟩, []⟩

/-- A table without a `deleted_at` column. -/
def exNoDeleteTable : Table :=
  ⟨"t", "", "t", [⟨"id", "int", false⟩], ⟨none, [], []⟩, []⟩

/-- The empty (or nil) map. -/
def exEmptyMap : GoMap := ⟨[], by decide⟩

/-- The map `{"logs": {}, "orders": {"total"}}`. -/
def exExceptMap : GoMap :=
  ⟨[("logs", Slice.lit []), ("orders", Slice.lit ["total"])], by decide⟩

/-- The map `{"*": {"id"}, "orders": {"total"}}`, no slice with spare capacity. -/
def exOnlyMap : GoMap :=
  ⟨[("*", Slice.lit ["id"]), ("orders", Slice.lit ["total"])], by decide⟩

/-- The map `{"*": g, "orders": {"total"}, "users": {"name"}}` where `g` is
`append(make([]string, 0, 2), "id")`: length 1, capacity 2. -/
def exOnlySpareMap : GoMap :=
  ⟨[("*", ⟨["id"], [""]⟩), ("orders", Slice.lit ["total"]), ("users", Slice.lit ["name"])],
    by decide⟩

/-- The map `exOnlySpareMap` with another column list under `users`; the entries
under `*` and `orders` are the same. -/
def exOnlySpareMapOther : GoMap :=
  ⟨[("*", ⟨["id"], [""]⟩), ("orders", Slice.lit ["total"]), ("users", Slice.lit ["email"])],
    by decide⟩

/-- The map `{"users": {}, "logs": {"a"}, "orders": {}}`. -/
def exThreeMap : GoMap :=
  ⟨[("users", Slice.lit []), ("logs", Slice.lit ["a"]), ("orders", Slice.nil)], by decide⟩

/-! ## Helper lemmas -/

theorem hasSuffix_data (s suffix : String) (h : HasSuffix s suffix = true) :
    s.data.drop (s.length - suffix.length) = suffix.data := by
  unfold HasSuffix at h
  simp only [Bool.and_eq_true, beq_iff_eq] at h
  exact h.2

theorem trim_reappend (s suffix : String) (h : HasSuffix s suffix = true) :
    TrimSuffix s suffix ++ suffix = s := by
  have hd := hasSuffix_data s suffix h
  unfold TrimSuffix
  rw [if_pos h]
  apply String.ext
  rw [String.data_append]
  show s.data.take (s.length - suffix.length) ++ suffix.data = s.data
  rw [← hd]
  exact List.take_append_drop _ _

theorem toMatch_eq_name (sfx : String) (r : Relationship) : toMatch sfx r = r.Name := by
  unfold toMatch
  by_cases hs : r.Local = r.Foreign
  · rw [if_pos hs]
    by_cases hh : HasSuffix r.Name sfx = true
    · simp only [hh, if_true]
      exact trim_reappend _ _ hh
    · simp only [hh, Bool.false_eq_true, if_false]
      unfold TrimSuffix
      rw [if_neg hh]
  · rw [if_neg hs]

theorem findForeignTable_of_getTable (tables : List Table) (key : String) (ft : Table)
    (h : GetTable tables key = Except.ok ft) : findForeignTable tables key = ft := by
  induction tables with
  | nil => simp [GetTable] at h
  | cons t ts ih =>
    unfold GetTable at h
    unfold findForeignTable
    by_cases hk : t.Key = key
    · rw [if_pos hk] at h
      rw [if_pos hk]
      exact Except.ok.inj h
    · rw [if_neg hk] at h
      rw [if_neg hk]
      exact ih h

theorem getTable_spec (tables : List Table) (name : String)
    (h : ∃ t ∈ tables, t.Key = name) :
    ∃ pre t post, tables = pre ++ t :: post ∧ (∀ u ∈ pre, u.Key ≠ name) ∧
      t.Key = name ∧ GetTable tables name = Except.ok t := by
  induction tables with
  | nil => obtain ⟨t, ht, _⟩ := h; cases ht
  | cons a ts ih =>
    by_cases hk : a.Key = name
    · refine ⟨[], a, ts, rfl, ?_, hk, ?_⟩
      · intro u hu; cases hu
      · unfold GetTable; rw [if_pos hk]
    · have h2 : ∃ t ∈ ts, t.Key = name := by
        obtain ⟨t, ht, hkt⟩ := h
        rcases List.mem_cons.mp ht with rfl | ht2
        · exact absurd hkt hk
        · exact ⟨t, ht2, hkt⟩
      obtain ⟨pre, t, post, hsplit, hpre, hkey, hget⟩ := ih h2
      refine ⟨a :: pre, t, post, by rw [hsplit]; rfl, ?_, hkey, ?_⟩
      · intro u hu
        rcases List.mem_cons.mp hu with rfl | hu2
        · exact hk
        · exact hpre u hu2
      · unfold GetTable; rw [if_neg hk]; exact hget

theorem getTable_key (tables : List Table) (name : String) (ft : Table)
    (h : GetTable tables name = Except.ok ft) : ft.Key = name := by
  induction tables with
  | nil => simp [GetTable] at h
  | cons t ts ih =>
    unfold GetTable at h
    by_cases hk : t.Key = name
    · rw [if_pos hk] at h
      rw [← Except.ok.inj h]; exact hk
    · rw [if_neg hk] at h
      exact ih h

theorem findForeignTable_absent (tables : List Table) (key : String)
    (h : ∀ t ∈ tables, t.Key ≠ key) : findForeignTable tables key = Table.zero := by
  induction tables with
  | nil => rfl
  | cons t ts ih =>
    unfold findForeignTable
    rw [if_neg (h t (List.mem_cons_self _ _))]
    exact ih (fun u hu => h u (List.mem_cons_of_mem _ hu))

theorem scanRelationships_eq_find (rs : List Relationship) (name : String) :
    scanRelationships rs name =
      (rs.find? (fun r2 => decide (r2.Name = name))).getD Relationship.zero := by
  induction rs with
  | nil => rfl
  | cons r2 rest ih =>
    unfold scanRelationships
    by_cases hn : name = r2.Name
    · rw [if_pos hn]
      simp [List.find?, hn]
    · rw [if_neg hn]
      have hn2 : ¬ r2.Name = name := fun h => hn h.symm
      simp [List.find?, hn2, ih]

theorem scanRelationships_first (rs : List Relationship) (name : String)
    (h : ∃ r2 ∈ rs, r2.Name = name) :
    ∃ pre r2 post, rs = pre ++ r2 :: post ∧ (∀ x ∈ pre, x.Name ≠ name) ∧
      r2.Name = name ∧ scanRelationships rs name = r2 := by
  induction rs with
  | nil => obtain ⟨x, hx, _⟩ := h; cases hx
  | cons a rest ih =>
    by_cases hk : name = a.Name
    · refine ⟨[], a, rest, rfl, ?_, hk.symm, ?_⟩
      · intro u hu; cases hu
      · unfold scanRelationships; rw [if_pos hk]
    · have h2 : ∃ x ∈ rest, x.Name = name := by
        obtain ⟨x, hx, hkx⟩ := h
        rcases List.mem_cons.mp hx with rfl | hx2
        · exact absurd hkx.symm hk
        · exact ⟨x, hx2, hkx⟩
      obtain ⟨pre, x, post, hsplit, hpre, hkey, hget⟩ := ih h2
      refine ⟨a :: pre, x, post, by rw [hsplit]; rfl, ?_, hkey, ?_⟩
      · intro u hu
        rcases List.mem_cons.mp hu with rfl | hu2
        · exact fun he => hk he.symm
        · exact hpre u hu2
      · unfold scanRelationships; rw [if_neg hk]; exact hget

theorem nonGeneratedLoop_eq (cs cols : List Column) :
    nonGeneratedLoop cs cols = cols ++ cs.filter (fun c => !c.Generated) := by
  induction cs generalizing cols with
  | nil => simp [nonGeneratedLoop]
  | cons c rest ih =>
    unfold nonGeneratedLoop
    by_cases hg : c.Generated = true
    · rw [if_pos hg, ih]
      simp [List.filter, hg]
    · rw [if_neg hg, ih]
      simp [List.filter, hg]

theorem canSoftDeleteLoop_iff (cs : List Column) (d : String) :
    canSoftDeleteLoop cs d = true ↔ ∃ c ∈ cs, c.Name = d ∧ c.Type_ = "null.Time" := by
  induction cs with
  | nil => simp [canSoftDeleteLoop]
  | cons c rest ih =>
    unfold canSoftDeleteLoop
    by_cases hc : c.Name = d ∧ c.Type_ = "null.Time"
    · rw [if_pos hc]
      simp only [true_iff]
      exact ⟨c, List.mem_cons_self _ _, hc⟩
    · rw [if_neg hc, ih]
      constructor
      · rintro ⟨x, hx, hp⟩
        exact ⟨x, List.mem_cons_of_mem _ hx, hp⟩
      · rintro ⟨x, hx, hp⟩
        rcases List.mem_cons.mp hx with rfl | hx2
        · exact absurd hp hc
        · exact ⟨x, hx2, hp⟩

theorem tableOnlyLoop_eq (l : List (String × Slice)) (acc : List String) :
    tableOnlyLoop l acc = acc ++ l.map Prod.fst := by
  induction l generalizing acc with
  | nil => simp [tableOnlyLoop]
  | cons e rest ih =>
    obtain ⟨name, cols⟩ := e
    unfold tableOnlyLoop
    rw [ih]
    simp

theorem tableExceptLoop_eq (l : List (String × Slice)) (acc : List String) :
    tableExceptLoop l acc =
      acc ++ (l.filter (fun e => decide (e.2.elems.length = 0))).map Prod.fst := by
  induction l generalizing acc with
  | nil => simp [tableExceptLoop]
  | cons e rest ih =>
    obtain ⟨name, cols⟩ := e
    unfold tableExceptLoop
    by_cases hz : cols.elems.length = 0
    · rw [if_pos hz, ih]
      simp [List.filter, hz]
    · rw [if_neg hz, ih]
      simp [List.filter, hz]

theorem lookup_eq_some_of_mem {β : Type} (l : List (String × β)) (k : String) (v : β)
    (hnd : (l.map Prod.fst).Nodup) (hm : (k, v) ∈ l) : l.lookup k = some v := by
  induction l with
  | nil => cases hm
  | cons e rest ih =>
    obtain ⟨k', v'⟩ := e
    rw [List.map_cons, List.nodup_cons] at hnd
    rcases List.mem_cons.mp hm with heq | hrest
    · obtain ⟨rfl, rfl⟩ := Prod.mk.inj heq
      simp
    · have hne : k ≠ k' := by
        rintro rfl
        exact hnd.1 (List.mem_map.mpr ⟨(k, v), hrest, rfl⟩)
      rw [List.lookup_cons]
      have hb : (k == k') = false := by simpa using hne
      rw [hb]
      exact ih hnd.2 hrest

theorem mem_of_lookup_eq_some {β : Type} (l : List (String × β)) (k : String) (v : β)
    (h : l.lookup k = some v) : (k, v) ∈ l := by
  induction l with
  | nil => simp at h
  | cons e rest ih =>
    obtain ⟨k', v'⟩ := e
    rw [List.lookup_cons] at h
    by_cases hk : k = k'
    · subst hk
      simp only [beq_self_eq_true, Option.some.injEq] at h
      subst h
      exact List.mem_cons_self _ _
    · have hb : (k == k') = false := by simpa using hk
      rw [hb] at h
      exact List.mem_cons_of_mem _ (ih h)

theorem goMap_find_iff (m : GoMap) (k : String) (v : Slice) :
    m.find? k = some v ↔ (k, v) ∈ m.entries :=
  ⟨mem_of_lookup_eq_some m.entries k v, lookup_eq_some_of_mem m.entries k v m.nodup⟩

theorem lookup_mapAssign_self (m : List (String × FilterRef)) (k : String) (v : FilterRef) :
    (mapAssign m k v).lookup k = some v := by
  induction m with
  | nil => simp [mapAssign]
  | cons e rest ih =>
    obtain ⟨k', v'⟩ := e
    unfold mapAssign
    by_cases hk : k' = k
    · rw [if_pos hk]; simp
    · rw [if_neg hk, List.lookup_cons]
      have hb : (k == k') = false := by simpa using fun h : k = k' => hk h.symm
      rw [hb]
      exact ih

theorem lookup_mapAssign_ne (m : List (String × FilterRef)) (k k2 : String) (v : FilterRef)
    (hne : k2 ≠ k) : (mapAssign m k v).lookup k2 = m.lookup k2 := by
  induction m with
  | nil =>
    have hb : (k2 == k) = false := by simpa using hne
    simp [mapAssign, List.lookup_cons, hb]
  | cons e rest ih =>
    obtain ⟨k', v'⟩ := e
    unfold mapAssign
    by_cases hk : k' = k
    · rw [if_pos hk]
      subst hk
      have hb : (k2 == k') = false := by simpa using hne
      simp [List.lookup_cons, hb]
    · rw [if_neg hk, List.lookup_cons, List.lookup_cons, ih]

theorem appendTo_exact_cells (g xs : List String) : (appendTo g g.length xs).1 = g := by
  unfold appendTo
  by_cases hfit : g.length + xs.length ≤ g.length
  · rw [if_pos hfit]
    have hx : xs = [] := List.length_eq_zero.mp (by omega)
    subst hx
    simp
  · rw [if_neg hfit]

theorem appendTo_exact_read (g xs : List String) :
    (appendTo g g.length xs).2.read g = g ++ xs := by
  unfold appendTo
  by_cases hfit : g.length + xs.length ≤ g.length
  · rw [if_pos hfit]
    have hx : xs = [] := List.length_eq_zero.mp (by omega)
    subst hx
    simp [SliceRef.read]
  · rw [if_neg hfit]
    simp [SliceRef.read]

/-- Loop invariant of `ParseColumnFilter` when neither wildcard slice has spare
capacity: the two arrays never change, every stored entry reads as the
concatenation, and every visited key has an entry. -/
theorem columnFilterLoop_exact (only except : GoMap) (gO gE : List String)
    (ts : List String) (st : ColumnFilter)
    (hO : st.onlyCells = gO) (hE : st.exceptCells = gE)
    (hent : ∀ k f, st.entries.lookup k = some f →
      f.Only.read gO = gO ++ (only.get k).elems ∧
      f.Except.read gE = gE ++ (except.get k).elems) :
    (columnFilterLoop only except gO.length gE.length ts st).onlyCells = gO ∧
    (columnFilterLoop only except gO.length gE.length ts st).exceptCells = gE ∧
    (∀ k f, (columnFilterLoop only except gO.length gE.length ts st).entries.lookup k
        = some f →
      f.Only.read gO = gO ++ (only.get k).elems ∧
      f.Except.read gE = gE ++ (except.get k).elems) ∧
    (∀ k, (k ∈ ts ∨ (st.entries.lookup k).isSome = true) →
      ((columnFilterLoop only except gO.length gE.length ts st).entries.lookup k).isSome
        = true) := by
  induction ts generalizing st with
  | nil =>
    refine ⟨hO, hE, hent, ?_⟩
    intro k hk
    rcases hk with hk | hk
    · cases hk
    · exact hk
  | cons t rest ih =>
    unfold columnFilterLoop
    simp only [hO, hE]
    have hstep := ih
      ⟨(appendTo gO gO.length (only.get t).elems).1,
       (appendTo gE gE.length (except.get t).elems).1,
       mapAssign st.entries t
        ⟨(appendTo gO gO.length (only.get t).elems).2,
         (appendTo gE gE.length (except.get t).elems).2⟩⟩
      (appendTo_exact_cells gO _) (appendTo_exact_cells gE _)
      (by
        intro k f hk
        by_cases hkt : k = t
        · subst hkt
          rw [lookup_mapAssign_self] at hk
          cases hk
          exact ⟨appendTo_exact_read gO _, appendTo_exact_read gE _⟩
        · rw [lookup_mapAssign_ne _ _ _ _ hkt] at hk
          exact hent k f hk)
    refine ⟨hstep.1, hstep.2.1, hstep.2.2.1, ?_⟩
    intro k hk
    apply hstep.2.2.2
    by_cases hkt : k = t
    · subst hkt
      right
      show ((mapAssign st.entries k _).lookup k).isSome = true
      rw [lookup_mapAssign_self]; rfl
    · rcases hk with hk | hk
      · rcases List.mem_cons.mp hk with h1 | h2
        · exact absurd h1 hkt
        · exact Or.inl h2
      · right
        show ((mapAssign st.entries t _).lookup k).isSome = true
        rw [lookup_mapAssign_ne _ _ _ _ hkt]; exact hk

/-- When `only["*"]` and `except["*"]` have no spare capacity (`len == cap`, the
nil slice included), every listed table reads as wildcard list followed by the
table's own list. -/
theorem parseColumnFilter_exact_capacity (tables : List String) (only except : GoMap)
    (t : String) (hO : (only.get "*").spare = []) (hE : (except.get "*").spare = [])
    (ht : t ∈ tables) :
    (ParseColumnFilter tables only except).get t =
      some ⟨(only.get "*").elems ++ (only.get t).elems,
            (except.get "*").elems ++ (except.get t).elems⟩ := by
  have hloop := columnFilterLoop_exact only except (only.get "*").elems
    (except.get "*").elems tables
    ⟨(only.get "*").elems ++ (only.get "*").spare,
     (except.get "*").elems ++ (except.get "*").spare, []⟩
    (by simp [hO]) (by simp [hE]) (by intro k f hk; simp at hk)
  obtain ⟨hc1, hc2, hread, hsome⟩ := hloop
  have hs := hsome t (Or.inl ht)
  unfold ParseColumnFilter ColumnFilter.get
  simp only []
  rw [hc1, hc2]
  cases hl : (columnFilterLoop only except (only.get "*").elems.length
      (except.get "*").elems.length tables
      ⟨(only.get "*").elems ++ (only.get "*").spare,
       (except.get "*").elems ++ (except.get "*").spare, []⟩).entries.lookup t with
  | none => rw [hl] at hs; cases hs
  | some f =>
    obtain ⟨h1, h2⟩ := hread t f hl
    simp only [Option.map_some', h1, h2]

theorem getTable_absent (tables : List Table) (name : String)
    (h : ¬ ∃ u ∈ tables, u.Key = name) :
    GetTable tables name = Except.error ("could not find table name: " ++ name) := by
  induction tables with
  | nil => rfl
  | cons a ts ih =>
    unfold GetTable
    have hk : ¬ a.Key = name := fun hk => h ⟨a, List.mem_cons_self _ _, hk⟩
    rw [if_neg hk]
    exact ih (fun ⟨u, hu, hku⟩ => h ⟨u, List.mem_cons_of_mem _ hu, hku⟩)

theorem getColumnLoop_eq_find (cs : List Column) (name : String) :
    getColumnLoop cs name = cs.find? (fun c => decide (c.Name = name)) := by
  induction cs with
  | nil => rfl
  | cons c rest ih =>
    unfold getColumnLoop
    by_cases hn : c.Name = name
    · rw [if_pos hn]
      simp [List.find?, hn]
    · rw [if_neg hn, ih]
      simp [List.find?, hn]

theorem getColumnLoop_none_iff (cs : List Column) (name : String) :
    getColumnLoop cs name = none ↔ ¬ ∃ c ∈ cs, c.Name = name := by
  rw [getColumnLoop_eq_find]
  simp

theorem findForeignTable_append (pre post : List Table) (ft : Table) (key : String)
    (hpre : ∀ u ∈ pre, u.Key ≠ key) (hkey : ft.Key = key) :
    findForeignTable (pre ++ ft :: post) key = ft := by
  induction pre with
  | nil =>
    show findForeignTable (ft :: post) key = ft
    unfold findForeignTable
    rw [if_pos hkey]
  | cons a rest ih =>
    show findForeignTable (a :: (rest ++ ft :: post)) key = ft
    unfold findForeignTable
    rw [if_neg (hpre a (List.mem_cons_self _ _))]
    exact ih (fun u hu => hpre u (List.mem_cons_of_mem _ hu))

theorem findForeignTable_key (tables : List Table) (key : String) :
    (findForeignTable tables key).Key = key ∨ (findForeignTable tables key).Key = "" := by
  induction tables with
  | nil => right; rfl
  | cons a rest ih =>
    unfold findForeignTable
    by_cases hk : a.Key = key
    · rw [if_pos hk]; exact Or.inl hk
    · rw [if_neg hk]; exact ih

theorem scanRelationships_none (rs : List Relationship) (name : String)
    (h : ∀ x ∈ rs, x.Name ≠ name) : scanRelationships rs name = Relationship.zero := by
  induction rs with
  | nil => rfl
  | cons a rest ih =>
    unfold scanRelationships
    have hn : ¬ name = a.Name := fun he => h a (List.mem_cons_self _ _) he.symm
    rw [if_neg hn]
    exact ih (fun x hx => h x (List.mem_cons_of_mem _ hx))

theorem scanRelationships_unique (rs : List Relationship) (name : String)
    (r2 : Relationship) (hnd : (rs.map Relationship.Name).Nodup)
    (hmem : r2 ∈ rs) (hname : r2.Name = name) : scanRelationships rs name = r2 := by
  induction rs with
  | nil => cases hmem
  | cons a rest ih =>
    rw [List.map_cons, List.nodup_cons] at hnd
    unfold scanRelationships
    rcases List.mem_cons.mp hmem with rfl | hrest
    · rw [if_pos hname.symm]
    · have hn : ¬ name = a.Name := by
        intro he
        apply hnd.1
        rw [← he, ← hname]
        exact List.mem_map.mpr ⟨r2, hrest, rfl⟩
      rw [if_neg hn]
      exact ih hnd.2 hrest

theorem nameIndex_none (rs : List Relationship) (name : String)
    (h : ∀ x ∈ rs, x.Name ≠ name) : nameIndex rs name = none := by
  induction rs with
  | nil => rfl
  | cons a rest ih =>
    unfold nameIndex
    rw [ih (fun x hx => h x (List.mem_cons_of_mem _ hx))]
    have hn : ¬ name = a.Name := fun he => h a (List.mem_cons_self _ _) he.symm
    simp only [if_neg hn]

theorem nameIndex_unique (rs : List Relationship) (name : String)
    (r2 : Relationship) (hnd : (rs.map Relationship.Name).Nodup)
    (hmem : r2 ∈ rs) (hname : r2.Name = name) : nameIndex rs name = some r2 := by
  induction rs with
  | nil => cases hmem
  | cons a rest ih =>
    rw [List.map_cons, List.nodup_cons] at hnd
    unfold nameIndex
    rcases List.mem_cons.mp hmem with rfl | hrest
    · have hnone : nameIndex rest name = none := by
        apply nameIndex_none
        intro x hx hxn
        apply hnd.1
        rw [hname, ← hxn]
        exact List.mem_map.mpr ⟨x, hx, rfl⟩
      rw [hnone]
      simp only [if_pos hname.symm]
    · rw [ih hnd.2 hrest]

/-- With pairwise distinct names the scan and the name-indexed mapping agree. -/
theorem scanRelationships_eq_nameIndex (rs : List Relationship) (name : String)
    (hnd : (rs.map Relationship.Name).Nodup) :
    scanRelationships rs name = (nameIndex rs name).getD Relationship.zero := by
  by_cases hex : ∃ r2 ∈ rs, r2.Name = name
  · obtain ⟨r2, hmem, hname⟩ := hex
    rw [scanRelationships_unique rs name r2 hnd hmem hname,
      nameIndex_unique rs name r2 hnd hmem hname]
    rfl
  · have hall : ∀ x ∈ rs, x.Name ≠ name := fun x hx hn => hex ⟨x, hx, hn⟩
    rw [scanRelationships_none rs name hall, nameIndex_none rs name hall]
    rfl

/-- With pairwise distinct names the scan gives the same result on every
permutation of the list. -/
theorem scanRelationships_perm (rs rs2 : List Relationship) (name : String)
    (hnd : (rs.map Relationship.Name).Nodup) (hperm : List.Perm rs2 rs) :
    scanRelationships rs2 name = scanRelationships rs name := by
  have hnd2 : (rs2.map Relationship.Name).Nodup :=
    ((hperm.map Relationship.Name).nodup_iff).mpr hnd
  by_cases hex : ∃ r2 ∈ rs, r2.Name = name
  · obtain ⟨r2, hmem, hname⟩ := hex
    rw [scanRelationships_unique rs name r2 hnd hmem hname,
      scanRelationships_unique rs2 name r2 hnd2 (hperm.mem_iff.mpr hmem) hname]
  · have hall : ∀ x ∈ rs, x.Name ≠ name := fun x hx hn => hex ⟨x, hx, hn⟩
    have hall2 : ∀ x ∈ rs2, x.Name ≠ name := fun x hx => hall x (hperm.mem_iff.mp hx)
    rw [scanRelationships_none rs name hall, scanRelationships_none rs2 name hall2]

theorem filter_map_fst_of_get (l : List (String × Slice)) (g : String → Slice)
    (p : Slice → Bool) (hg : ∀ e ∈ l, g e.1 = e.2) :
    (l.filter (fun e => p e.2)).map Prod.fst = (l.map Prod.fst).filter (fun k => p (g k)) := by
  induction l with
  | nil => rfl
  | cons e rest ih =>
    have he : g e.1 = e.2 := hg e (List.mem_cons_self _ _)
    have ih2 := ih (fun x hx => hg x (List.mem_cons_of_mem _ hx))
    by_cases hp : p e.2 = true
    · simp [List.filter_cons, hp, he, ih2]
    · simp [List.filter_cons, hp, he, ih2]

theorem goMap_get_of_mem (m : GoMap) (e : String × Slice) (he : e ∈ m.entries) :
    m.get e.1 = e.2 := by
  unfold GoMap.get
  rw [(goMap_find_iff m e.1 e.2).mpr he]
  rfl

theorem mem_keys_mapAssign (m : List (String × FilterRef)) (k k2 : String) (v : FilterRef) :
    k2 ∈ (mapAssign m k v).map Prod.fst ↔ k2 = k ∨ k2 ∈ m.map Prod.fst := by
  induction m with
  | nil => simp [mapAssign]
  | cons e rest ih =>
    obtain ⟨k', v'⟩ := e
    unfold mapAssign
    by_cases hk : k' = k
    · rw [if_pos hk]
      subst hk
      simp
    · rw [if_neg hk]
      simp only [List.map_cons, List.mem_cons, ih]
      constructor
      · rintro (h | h | h)
        · exact Or.inr (Or.inl h)
        · exact Or.inl h
        · exact Or.inr (Or.inr h)
      · rintro (h | h | h)
        · exact Or.inr (Or.inl h)
        · exact Or.inl h
        · exact Or.inr (Or.inr h)

theorem nodup_keys_mapAssign (m : List (String × FilterRef)) (k : String) (v : FilterRef)
    (hnd : (m.map Prod.fst).Nodup) : ((mapAssign m k v).map Prod.fst).Nodup := by
  induction m with
  | nil => simp [mapAssign]
  | cons e rest ih =>
    obtain ⟨k', v'⟩ := e
    rw [List.map_cons, List.nodup_cons] at hnd
    unfold mapAssign
    by_cases hk : k' = k
    · rw [if_pos hk]
      subst hk
      rw [List.map_cons, List.nodup_cons]
      exact hnd
    · rw [if_neg hk, List.map_cons, List.nodup_cons]
      refine ⟨?_, ih hnd.2⟩
      intro hmem
      rcases (mem_keys_mapAssign rest k k' v).mp hmem with h | h
      · exact hk h
      · exact hnd.1 h

/-- Keys of the map built by the loop of `ParseColumnFilter`: the keys already
present and the visited table keys, each once. -/
theorem columnFilterLoop_keys (only except : GoMap) (n1 n2 : Nat) (ts : List String)
    (st : ColumnFilter) (hnd : (st.entries.map Prod.fst).Nodup) :
    ((columnFilterLoop only except n1 n2 ts st).entries.map Prod.fst).Nodup ∧
    ∀ k, k ∈ (columnFilterLoop only except n1 n2 ts st).entries.map Prod.fst ↔
      (k ∈ ts ∨ k ∈ st.entries.map Prod.fst) := by
  induction ts generalizing st with
  | nil =>
    refine ⟨hnd, ?_⟩
    intro k
    simp [columnFilterLoop]
  | cons t rest ih =>
    unfold columnFilterLoop
    have hstep := ih
      ⟨(appendTo st.onlyCells n1 (only.get t).elems).1,
       (appendTo st.exceptCells n2 (except.get t).elems).1,
       mapAssign st.entries t
        ⟨(appendTo st.onlyCells n1 (only.get t).elems).2,
         (appendTo st.exceptCells n2 (except.get t).elems).2⟩⟩
      (nodup_keys_mapAssign _ _ _ hnd)
    refine ⟨hstep.1, ?_⟩
    intro k
    rw [hstep.2 k]
    simp only [mem_keys_mapAssign, List.mem_cons]
    constructor
    · rintro (h | h | h)
      · exact Or.inl (Or.inr h)
      · exact Or.inl (Or.inl h)
      · exact Or.inr h
    · rintro ((h | h) | h)
      · exact Or.inr (Or.inl h)
      · exact Or.inl h
      · exact Or.inr (Or.inr h)

theorem lookup_isSome_iff_mem_keys (l : List (String × FilterRef)) (k : String) :
    (l.lookup k).isSome = true ↔ k ∈ l.map Prod.fst := by
  induction l with
  | nil => simp
  | cons e rest ih =>
    obtain ⟨k', v'⟩ := e
    rw [List.lookup_cons]
    by_cases hk : k = k'
    · subst hk
      simp
    · have hb : (k == k') = false := by simpa using hk
      rw [hb]
      simp only [List.map_cons, List.mem_cons, hk, false_or]
      exact ih

theorem getColumnLoop_some_iff (cs : List Column) (name : String) (c : Column) :
    getColumnLoop cs name = some c ↔
      ∃ pre post, cs = pre ++ c :: post ∧ (∀ x ∈ pre, x.Name ≠ name) ∧ c.Name = name := by
  rw [getColumnLoop_eq_find, List.find?_eq_some]
  constructor
  · rintro ⟨hc, pre, post, hsplit, hpre⟩
    refine ⟨pre, post, hsplit, ?_, by simpa using hc⟩
    intro x hx
    simpa using hpre x hx
  · rintro ⟨pre, post, hsplit, hpre, hc⟩
    refine ⟨by simpa using hc, pre, post, hsplit, ?_⟩
    intro x hx
    simpa using hpre x hx

/-- Without spare capacity in the two wildcard slices, the filter of a listed
table is the same for any two pairs of maps that agree on `*` and on the table's
own key. -/
theorem parseColumnFilter_local_exact_capacity (tables : List String)
    (only1 except1 only2 except2 : GoMap) (t : String)
    (hO : (only1.get "*").spare = []) (hE : (except1.get "*").spare = [])
    (hOg : only1.get "*" = only2.get "*") (hOt : only1.get t = only2.get t)
    (hEg : except1.get "*" = except2.get "*") (hEt : except1.get t = except2.get t)
    (ht : t ∈ tables) :
    (ParseColumnFilter tables only1 except1).get t =
      (ParseColumnFilter tables only2 except2).get t := by
  rw [parseColumnFilter_exact_capacity tables only1 except1 t hO hE ht,
    parseColumnFilter_exact_capacity tables only2 except2 t (hOg ▸ hO) (hEg ▸ hE) ht,
    hOg, hOt, hEg, hEt]

/-! ## Relationship resolver: properties -/

/-- C1 (as stated, refuted): a non-self-join relationship, a table keyed
`r.Foreign()` holding a same-named relationship, and yet the zero value is
returned. First input: the foreign key is the empty string. Second input: two
tables share the key and the first of them has no such relationship. -/
theorem getRelationshipInverse_same_name_counterexample :
    (exRelEmptyForeign.Local ≠ exRelEmptyForeign.Foreign ∧
      (∃ ft ∈ exTablesEmptyKey, ft.Key = exRelEmptyForeign.Foreign ∧
        ∃ r2 ∈ ft.Relationships, r2.Name = exRelEmptyForeign.Name) ∧
      Table.GetRelationshipInverse "__self_join_reverse" Table.zero exTablesEmptyKey
        exRelEmptyForeign = Relationship.zero ∧
      Relationship.zero.Name ≠ exRelEmptyForeign.Name) ∧
    (exRel.Local ≠ exRel.Foreign ∧
      (∃ ft ∈ exTablesDupKey, ft.Key = exRel.Foreign ∧
        ∃ r2 ∈ ft.Relationships, r2.Name = exRel.Name) ∧
      Table.GetRelationshipInverse "__self_join_reverse" Table.zero exTablesDupKey
        exRel = Relationship.zero ∧
      Relationship.zero.Name ≠ exRel.Name) := by
  refine ⟨⟨by decide, ?_, by decide, by decide⟩, ⟨by decide, ?_, by decide, by decide⟩⟩
  · exact ⟨_, List.mem_cons_self _ _, by decide, exRelOnEmpty, List.mem_cons_self _ _, by decide⟩
  · exact ⟨_, List.mem_cons_of_mem _ (List.mem_cons_self _ _), by decide, exRelBack,
      List.mem_cons_self _ _, by decide⟩

/-- C1 (amended): for a non-self-join relationship `r` with a non-empty foreign
key, when the first table keyed `r.Foreign()` holds a relationship named
`r.Name`, `GetRelationshipInverse` returns the first such relationship of that
table, in list order. -/
theorem getRelationshipInverse_same_name (sfx : String) (t : Table) (tables : List Table)
    (r : Relationship) (ft : Table)
    (hns : r.Local ≠ r.Foreign) (hne : r.Foreign ≠ "")
    (hft : GetTable tables r.Foreign = Except.ok ft)
    (hex : ∃ r2 ∈ ft.Relationships, r2.Name = r.Name) :
    ∃ pre r2 post, ft.Relationships = pre ++ r2 :: post ∧ (∀ x ∈ pre, x.Name ≠ r.Name) ∧
      r2.Name = r.Name ∧ r2 ∈ ft.Relationships ∧
      Table.GetRelationshipInverse sfx t tables r = r2 := by
  obtain ⟨pre, r2, post, hsplit, hpre, hname, hscan⟩ :=
    scanRelationships_first ft.Relationships r.Name hex
  refine ⟨pre, r2, post, hsplit, hpre, hname, ?_, ?_⟩
  · rw [hsplit]; exact List.mem_append_right _ (List.mem_cons_self _ _)
  · have hkey : ft.Key ≠ "" := by rw [getTable_key tables r.Foreign ft hft]; exact hne
    unfold Table.GetRelationshipInverse
    simp only [findForeignTable_of_getTable tables r.Foreign ft hft, if_neg hkey]
    unfold toMatch
    rw [if_neg hns]
    exact hscan

/-- Witness for C1 (amended): `exRel` against `exTables` resolves to `exRelBack`,
the second relationship of the `users` table. -/
theorem getRelationshipInverse_same_name_witness :
    exRel.Local ≠ exRel.Foreign ∧ exRel.Foreign ≠ "" ∧
    (∃ pre r2 post, [exRelOther, exRelBack] = pre ++ r2 :: post ∧
      (∀ x ∈ pre, x.Name ≠ exRel.Name) ∧ r2.Name = exRel.Name ∧
      r2 ∈ [exRelOther, exRelBack] ∧
      Table.GetRelationshipInverse "__self_join_reverse" Table.zero exTables exRel = r2) :=
  ⟨by decide, by decide,
    getRelationshipInverse_same_name "__self_join_reverse" Table.zero exTables exRel
      ⟨"users", "", "users", [], ⟨none, [], []⟩, [exRelOther, exRelBack]⟩
      (by decide) (by decide) rfl
      ⟨exRelBack, List.mem_cons_of_mem _ (List.mem_cons_self _ _), by decide⟩⟩

/-- C2 (as stated, refuted): on the self-join `exSelfRelEmpty` the search name is
`r.Name`, the table keyed `r.Foreign()` is found and a scan of its relationships
for `r.Name` gives `exSelfRelEmpty`, yet `GetRelationshipInverse` returns the
zero value, because that table's key is empty. -/
theorem getRelationshipInverse_selfJoin_name_counterexample :
    exSelfRelEmpty.Local = exSelfRelEmpty.Foreign ∧
    toMatch "__self_join_reverse" exSelfRelEmpty = exSelfRelEmpty.Name ∧
    GetTable exSelfTablesEmptyKey exSelfRelEmpty.Foreign =
      Except.ok ⟨"", "", "anon", [], ⟨none, [], []⟩, [exSelfRelEmpty]⟩ ∧
    scanRelationships [exSelfRelEmpty] exSelfRelEmpty.Name = exSelfRelEmpty ∧
    Table.GetRelationshipInverse "__self_join_reverse" Table.zero exSelfTablesEmptyKey
      exSelfRelEmpty = Relationship.zero ∧
    Relationship.zero ≠ exSelfRelEmpty := by
  refine ⟨by decide, by decide, rfl, by decide, by decide, by decide⟩

/-- C2 (amended): on a self-join the computed search name (trim the suffix, append
it again when it was present) equals `r.Name`, for every name and every suffix;
hence `GetRelationshipInverse` returns the zero value when the located table has
the empty key (no table keyed `r.Foreign()`, or that key is empty) and otherwise
the result of the scan of the foreign table's relationships for `r.Name`. -/
theorem getRelationshipInverse_selfJoin_name (sfx : String) (t : Table) (tables : List Table)
    (r : Relationship) (hself : r.Local = r.Foreign) :
    toMatch sfx r = r.Name ∧
    (if HasSuffix r.Name sfx then TrimSuffix r.Name sfx ++ sfx else TrimSuffix r.Name sfx)
      = r.Name ∧
    Table.GetRelationshipInverse sfx t tables r =
      (if (findForeignTable tables r.Foreign).Key = "" then Relationship.zero
       else scanRelationships (findForeignTable tables r.Foreign).Relationships r.Name) := by
  have hm : toMatch sfx r = r.Name := toMatch_eq_name sfx r
  refine ⟨hm, ?_, ?_⟩
  · have h2 := hm
    unfold toMatch at h2
    rw [if_pos hself] at h2
    exact h2
  · unfold Table.GetRelationshipInverse
    simp only [hm]

/-- Witness for C2 (amended): the self-join `exSelfRel`, whose name ends in the suffix. -/
theorem getRelationshipInverse_selfJoin_name_witness :
    exSelfRel.Local = exSelfRel.Foreign ∧
    HasSuffix exSelfRel.Name "__self_join_reverse" = true ∧
    toMatch "__self_join_reverse" exSelfRel = exSelfRel.Name ∧
    Table.GetRelationshipInverse "__self_join_reverse" Table.zero exSelfTables exSelfRel
      = exSelfRel :=
  have h := getRelationshipInverse_selfJoin_name "__self_join_reverse" Table.zero
    exSelfTables exSelfRel (by decide)
  ⟨by decide, by decide, h.1, by rw [h.2.2]; decide⟩

/-- C3: when no table of the snapshot has the key `r.Foreign()`,
`GetRelationshipInverse` returns the zero-value relationship, for every receiver. -/
theorem getRelationshipInverse_foreign_absent (sfx : String) (t : Table)
    (tables : List Table) (r : Relationship)
    (habs : ∀ u ∈ tables, u.Key ≠ r.Foreign) :
    Table.GetRelationshipInverse sfx t tables r = Relationship.zero := by
  unfold Table.GetRelationshipInverse
  simp only [findForeignTable_absent tables r.Foreign habs]
  rfl

/-- Witness for C3: the snapshot `exTables` has no table keyed `orders`. -/
theorem getRelationshipInverse_foreign_absent_witness :
    (∀ u ∈ exTables, u.Key ≠ "orders") ∧
    Table.GetRelationshipInverse "__self_join_reverse" Table.zero exTables
      ⟨"author", "posts", "orders"⟩ = Relationship.zero :=
  ⟨by decide,
    getRelationshipInverse_foreign_absent "__self_join_reverse" Table.zero exTables
      ⟨"author", "posts", "orders"⟩ (by decide)⟩

/-- C4 (as stated, refuted): a table keyed `r.Foreign()` exists, `GetTable` finds
it and its first relationship named `r.Name` is `exRelOnEmpty`, yet
`GetRelationshipInverse` returns the zero value, because the key is empty. -/
theorem getRelationshipInverse_first_match_counterexample :
    (∃ u ∈ exTablesEmptyKey, u.Key = exRelEmptyForeign.Foreign) ∧
    GetTable exTablesEmptyKey exRelEmptyForeign.Foreign =
      Except.ok ⟨"", "", "anon", [], ⟨none, [], []⟩, [exRelOnEmpty]⟩ ∧
    [exRelOnEmpty].find? (fun r2 => decide (r2.Name = exRelEmptyForeign.Name))
      = some exRelOnEmpty ∧
    Table.GetRelationshipInverse "__self_join_reverse" Table.zero exTablesEmptyKey
      exRelEmptyForeign = Relationship.zero ∧
    Relationship.zero ≠ exRelOnEmpty := by
  refine ⟨⟨_, List.mem_cons_self _ _, by decide⟩, rfl, by decide, by decide, by decide⟩

/-- C4 (amended): when `r.Foreign()` is not the empty string and some table has
that key, `GetRelationshipInverse` equals the first relationship, in list order,
of `GetTable(tables, r.Foreign()).Relationships` whose name is `r.Name`, and the
zero value when that list has no such relationship. -/
theorem getRelationshipInverse_first_match (sfx : String) (t : Table) (tables : List Table)
    (r : Relationship) (hne : r.Foreign ≠ "")
    (hex : ∃ u ∈ tables, u.Key = r.Foreign) :
    ∃ ft, GetTable tables r.Foreign = Except.ok ft ∧
      Table.GetRelationshipInverse sfx t tables r =
        (ft.Relationships.find? (fun r2 => decide (r2.Name = r.Name))).getD
          Relationship.zero := by
  obtain ⟨_, ft, _, _, _, hkey, hget⟩ := getTable_spec tables r.Foreign hex
  refine ⟨ft, hget, ?_⟩
  have hk : ft.Key ≠ "" := by rw [hkey]; exact hne
  unfold Table.GetRelationshipInverse
  simp only [findForeignTable_of_getTable tables r.Foreign ft hget, if_neg hk,
    toMatch_eq_name, scanRelationships_eq_find]

/-- Witness for C4 (amended): `exRel` against `exTables`. -/
theorem getRelationshipInverse_first_match_witness :
    exRel.Foreign ≠ "" ∧ (∃ u ∈ exTables, u.Key = exRel.Foreign) ∧
    (∃ ft, GetTable exTables exRel.Foreign = Except.ok ft ∧
      Table.GetRelationshipInverse "__self_join_reverse" Table.zero exTables exRel =
        (ft.Relationships.find? (fun r2 => decide (r2.Name = exRel.Name))).getD
          Relationship.zero) :=
  ⟨by decide, ⟨_, List.mem_cons_of_mem _ (List.mem_cons_self _ _), by decide⟩,
    getRelationshipInverse_first_match "__self_join_reverse" Table.zero exTables exRel
      (by decide) ⟨_, List.mem_cons_of_mem _ (List.mem_cons_self _ _), by decide⟩⟩

/-! ## Filter compilers: properties -/

/-- C5 (the code at the failing input): `only["*"]` has length 1 and capacity 2,
the tables `orders` and `users` each have one column of their own. Both calls of
`append(global.Only, ...)` write into the same spare cell, so after the loop the
entry of `orders` reads `["id", "name"]`, while the wildcard list followed by the
list of `orders` is `["id", "total"]`. Without spare capacity (`exOnlyMap`) the
entry of `orders` reads `["id", "total"]`. -/
theorem parseColumnFilter_append_aliasing :
    (ParseColumnFilter ["orders", "users"] exOnlySpareMap exEmptyMap).get "orders" =
      some ⟨["id", "name"], []⟩ ∧
    (exOnlySpareMap.get "*").elems ++ (exOnlySpareMap.get "orders").elems =
      ["id", "total"] ∧
    (ParseColumnFilter ["orders", "users"] exOnlySpareMap exEmptyMap).get "users" =
      some ⟨["id", "name"], []⟩ ∧
    (ParseColumnFilter ["orders"] exOnlyMap exEmptyMap).get "orders" =
      some ⟨["id", "total"], []⟩ := by
  refine ⟨by decide, by decide, by decide, by decide⟩

/-- C6: a key is in the `Except` list of `ParseTableFilter(only, except)` exactly
when it is a key of `except` whose column list has length zero. For
`{"logs": {}, "orders": {"total"}}` the list holds `logs` and not `orders`. -/
theorem parseTableFilter_except_iff (only except : GoMap) (k : String) :
    (k ∈ (ParseTableFilter only except).Except ↔
      ∃ cols, except.find? k = some cols ∧ cols.elems.length = 0) ∧
    "logs" ∈ (ParseTableFilter exEmptyMap exExceptMap).Except ∧
    "orders" ∉ (ParseTableFilter exEmptyMap exExceptMap).Except := by
  refine ⟨?_, by decide, by decide⟩
  unfold ParseTableFilter
  simp only [tableExceptLoop_eq, List.nil_append, List.mem_map, List.mem_filter,
    decide_eq_true_eq]
  constructor
  · rintro ⟨⟨name, cols⟩, ⟨hmem, hz⟩, rfl⟩
    exact ⟨cols, (goMap_find_iff except name cols).mpr hmem, hz⟩
  · rintro ⟨cols, hfind, hz⟩
    exact ⟨(k, cols), ⟨(goMap_find_iff except k cols).mp hfind, hz⟩, rfl⟩

/-- C7: a key is in the `Only` list of `ParseTableFilter(only, except)` exactly
when it is a key of `only`, whatever its column list and whatever `except`
holds. -/
theorem parseTableFilter_only_iff (only except : GoMap) (k : String) :
    (k ∈ (ParseTableFilter only except).Only ↔ k ∈ only.keys) ∧
    (k ∈ (ParseTableFilter only except).Only ↔ (only.find? k).isSome = true) := by
  have h1 : k ∈ (ParseTableFilter only except).Only ↔ k ∈ only.keys := by
    unfold ParseTableFilter GoMap.keys
    simp only [tableOnlyLoop_eq, List.nil_append]
  refine ⟨h1, h1.trans ?_⟩
  unfold GoMap.keys GoMap.find?
  rw [List.mem_map]
  constructor
  · rintro ⟨⟨name, cols⟩, hmem, rfl⟩
    rw [lookup_eq_some_of_mem only.entries name cols only.nodup hmem]
    rfl
  · intro hsome
    cases hl : only.entries.lookup k with
    | none => rw [hl] at hsome; cases hsome
    | some v => exact ⟨(k, v), mem_of_lookup_eq_some only.entries k v hl, rfl⟩

/-! ## Table methods: properties -/

/-- C8: `t.NonGeneratedColumns()` is the order-preserving filter of `t.Columns`
by `Generated == false`: it is a sublist of `t.Columns`, a non-generated column
keeps its multiplicity and a generated column does not occur. For
`[a, b(generated), c]` the result is `[a, c]`. -/
theorem nonGeneratedColumns_eq_filter (t : Table) (c : Column) :
    t.NonGeneratedColumns = t.Columns.filter (fun x => !x.Generated) ∧
    List.Sublist t.NonGeneratedColumns t.Columns ∧
    t.NonGeneratedColumns.count c = (if c.Generated then 0 else t.Columns.count c) ∧
    exColumnsTable.NonGeneratedColumns = [⟨"a", "int", false⟩, ⟨"c", "string", false⟩] := by
  have heq : t.NonGeneratedColumns = t.Columns.filter (fun x => !x.Generated) := by
    unfold Table.NonGeneratedColumns
    rw [nonGeneratedLoop_eq, List.nil_append]
  refine ⟨heq, ?_, ?_, by decide⟩
  · rw [heq]; exact List.filter_sublist _
  · rw [heq]
    by_cases hg : c.Generated = true
    · rw [if_pos hg]
      apply List.count_eq_zero.mpr
      intro hmem
      have := (List.mem_filter.mp hmem).2
      simp [hg] at this
    · rw [if_neg hg]
      exact List.count_filter (by simp [hg])

/-- C9: with the empty name standing for `deleted_at`, `t.CanSoftDelete(d)` is
true exactly when one column of `t.Columns` has both that name and the type
`null.Time`. With `d` empty it is true for a `deleted_at` column of type
`null.Time`, false when `deleted_at` has another type and false when there is no
such column. -/
theorem canSoftDelete_iff (t : Table) (d : String) :
    (t.CanSoftDelete d = true ↔
      ∃ c ∈ t.Columns, c.Name = (if d = "" then "deleted_at" else d) ∧
        c.Type_ = "null.Time") ∧
    exSoftTable.CanSoftDelete "" = true ∧
    exWrongTypeTable.CanSoftDelete "" = false ∧
    exNoDeleteTable.CanSoftDelete "" = false ∧
    exWrongTypeTable.CanSoftDelete "removed" = true := by
  refine ⟨?_, by decide, by decide, by decide, by decide⟩
  unfold Table.CanSoftDelete
  exact canSoftDeleteLoop_iff t.Columns _

/-! ## Lookup: properties -/

/-- C10: when some table has the key `name`, `GetTable(tables, name)` returns
(without the failure) the first table in list order whose key is `name`; that
table is an element of `tables`. -/
theorem getTable_found (tables : List Table) (name : String)
    (h : ∃ u ∈ tables, u.Key = name) :
    ∃ pre t post, tables = pre ++ t :: post ∧ (∀ u ∈ pre, u.Key ≠ name) ∧
      t.Key = name ∧ t ∈ tables ∧ GetTable tables name = Except.ok t := by
  obtain ⟨pre, t, post, hsplit, hpre, hkey, hget⟩ := getTable_spec tables name h
  refine ⟨pre, t, post, hsplit, hpre, hkey, ?_, hget⟩
  rw [hsplit]
  exact List.mem_append_right _ (List.mem_cons_self _ _)

/-- Witness for C10: in `exTablesDupKey` two tables have the key `users`; the
first one, which has no relationships, is returned. -/
theorem getTable_found_witness :
    (∃ u ∈ exTablesDupKey, u.Key = "users") ∧
    GetTable exTablesDupKey "users" =
      Except.ok ⟨"users", "", "users", [], ⟨none, [], []⟩, []⟩ ∧
    (∃ pre t post, exTablesDupKey = pre ++ t :: post ∧ (∀ u ∈ pre, u.Key ≠ "users") ∧
      t.Key = "users" ∧ t ∈ exTablesDupKey ∧
      GetTable exTablesDupKey "users" = Except.ok t) :=
  ⟨⟨_, List.mem_cons_self _ _, by decide⟩, rfl,
    getTable_found exTablesDupKey "users" ⟨_, List.mem_cons_self _ _, by decide⟩⟩

/-- C11: `GetTable(tables, name)` fails exactly when no table has the key `name`,
and the only failure message is `could not find table name: ` followed by
`name`. In `exTables` there is no table keyed `orders`. -/
theorem getTable_fails_iff (tables : List Table) (name : String) (msg : String) :
    ((∃ m, GetTable tables name = Except.error m) ↔ ¬ ∃ u ∈ tables, u.Key = name) ∧
    (GetTable tables name = Except.error msg ↔
      (¬ ∃ u ∈ tables, u.Key = name) ∧ msg = "could not find table name: " ++ name) ∧
    GetTable exTables "orders" = Except.error "could not find table name: orders" := by
  refine ⟨?_, ?_, rfl⟩
  · constructor
    · rintro ⟨m, hm⟩ hex
      obtain ⟨_, t, _, _, _, _, hget⟩ := getTable_spec tables name hex
      rw [hget] at hm
      cases hm
    · intro hno
      exact ⟨_, getTable_absent tables name hno⟩
  · constructor
    · intro hm
      have hno : ¬ ∃ u ∈ tables, u.Key = name := by
        intro hex
        obtain ⟨_, t, _, _, _, _, hget⟩ := getTable_spec tables name hex
        rw [hget] at hm
        cases hm
      refine ⟨hno, ?_⟩
      rw [getTable_absent tables name hno] at hm
      exact (Except.error.inj hm).symm
    · rintro ⟨hno, rfl⟩
      exact getTable_absent tables name hno

/-- C12: `t.GetColumn(name)` returns a column `c` exactly when `c` is the first
column of `t.Columns`, in list order, whose name is `name`; it returns one when
such a column exists and fails exactly when no column has that name. In
`exTwoIdTable` the first of the two `id` columns is returned. -/
theorem getColumn_first_or_fails (t : Table) (name : String) (c : Column) :
    (t.GetColumn name = Except.ok c ↔
      ∃ pre post, t.Columns = pre ++ c :: post ∧ (∀ x ∈ pre, x.Name ≠ name) ∧
        c.Name = name) ∧
    ((∃ x, t.GetColumn name = Except.ok x) ↔ ∃ x ∈ t.Columns, x.Name = name) ∧
    ((∃ e, t.GetColumn name = Except.error e) ↔ ¬ ∃ x ∈ t.Columns, x.Name = name) ∧
    exTwoIdTable.GetColumn "id" = Except.ok ⟨"id", "int", false⟩ ∧
    exTwoIdTable.GetColumn "idx" = Except.error ⟨"t", "idx", exTwoIdTable.Columns⟩ := by
  have hnone := getColumnLoop_none_iff t.Columns name
  refine ⟨?_, ?_, ?_, rfl, rfl⟩
  · rw [← getColumnLoop_some_iff]
    unfold Table.GetColumn
    cases hl : getColumnLoop t.Columns name with
    | none => simp
    | some x =>
      constructor
      · intro h; rw [Except.ok.inj h]
      · intro h; rw [Option.some.inj h]
  · unfold Table.GetColumn
    cases hl : getColumnLoop t.Columns name with
    | none =>
      have hno := hnone.mp hl
      constructor
      · rintro ⟨x, hx⟩; cases hx
      · intro hex; exact absurd hex hno
    | some x =>
      constructor
      · intro _
        by_contra hno
        rw [hnone.mpr hno] at hl
        cases hl
      · intro _; exact ⟨x, rfl⟩
  · unfold Table.GetColumn
    cases hl : getColumnLoop t.Columns name with
    | none =>
      constructor
      · intro _; exact hnone.mp hl
      · intro _; exact ⟨_, rfl⟩
    | some x =>
      constructor
      · rintro ⟨e, he⟩; cases he
      · intro hno
        rw [hnone.mpr hno] at hl
        cases hl

/-- C13 (the code at the failing input): `exOnlySpareMap` and
`exOnlySpareMapOther` agree on the keys `*` and `orders` and differ only under
`users`; `only["*"]` has length 1 and capacity 2. The filter of `orders` reads
`["id", "name"]` for the first map and `["id", "email"]` for the second. -/
theorem parseColumnFilter_other_key_leaks :
    exOnlySpareMap.get "*" = exOnlySpareMapOther.get "*" ∧
    exOnlySpareMap.get "orders" = exOnlySpareMapOther.get "orders" ∧
    (ParseColumnFilter ["orders", "users"] exOnlySpareMap exEmptyMap).get "orders" =
      some ⟨["id", "name"], []⟩ ∧
    (ParseColumnFilter ["orders", "users"] exOnlySpareMapOther exEmptyMap).get "orders" =
      some ⟨["id", "email"], []⟩ ∧
    (ParseColumnFilter ["orders", "users"] exOnlySpareMap exEmptyMap).get "orders" ≠
      (ParseColumnFilter ["orders", "users"] exOnlySpareMapOther exEmptyMap).get "orders" := by
  refine ⟨by decide, by decide, by decide, by decide, by decide⟩

/-- C14: when the foreign table `ft` is the first table keyed `r.Foreign()` and
the names of its relationships are pairwise distinct, replacing its relationship
list by any permutation leaves the result of `GetRelationshipInverse` unchanged,
and the result equals the lookup of `r.Name` in the name-indexed mapping of the
list (behind the same check of the table key). -/
theorem getRelationshipInverse_perm (sfx : String) (t : Table) (pre post : List Table)
    (ft : Table) (rs2 : List Relationship) (r : Relationship)
    (hpre : ∀ u ∈ pre, u.Key ≠ r.Foreign) (hkey : ft.Key = r.Foreign)
    (hnd : (ft.Relationships.map Relationship.Name).Nodup)
    (hperm : List.Perm rs2 ft.Relationships) :
    Table.GetRelationshipInverse sfx t (pre ++ { ft with Relationships := rs2 } :: post) r =
      Table.GetRelationshipInverse sfx t (pre ++ ft :: post) r ∧
    Table.GetRelationshipInverse sfx t (pre ++ ft :: post) r =
      (if ft.Key = "" then Relationship.zero
       else (nameIndex ft.Relationships r.Name).getD Relationship.zero) := by
  have h1 : findForeignTable (pre ++ ft :: post) r.Foreign = ft :=
    findForeignTable_append pre post ft r.Foreign hpre hkey
  have h2 : findForeignTable (pre ++ { ft with Relationships := rs2 } :: post) r.Foreign =
      { ft with Relationships := rs2 } :=
    findForeignTable_append pre post _ r.Foreign hpre hkey
  unfold Table.GetRelationshipInverse
  simp only [h1, h2, toMatch_eq_name]
  by_cases hk : ft.Key = ""
  · simp only [if_pos hk, and_self]
  · simp only [if_neg hk]
    exact ⟨scanRelationships_perm ft.Relationships rs2 r.Name hnd hperm,
      scanRelationships_eq_nameIndex ft.Relationships r.Name hnd⟩

/-- Witness for C14: the two relationships of the `users` table swapped. -/
theorem getRelationshipInverse_perm_witness :
    List.Perm [exRelBack, exRelOther] [exRelOther, exRelBack] ∧
    Table.GetRelationshipInverse "__self_join_reverse" Table.zero exTablesSwapped exRel =
      Table.GetRelationshipInverse "__self_join_reverse" Table.zero exTables exRel ∧
    Table.GetRelationshipInverse "__self_join_reverse" Table.zero exTables exRel =
      exRelBack :=
  have h := getRelationshipInverse_perm "__self_join_reverse" Table.zero
    [⟨"posts", "", "posts", [], ⟨none, [], []⟩, [exRel]⟩] []
    ⟨"users", "", "users", [], ⟨none, [], []⟩, [exRelOther, exRelBack]⟩
    [exRelBack, exRelOther] exRel (by decide) (by decide) (by decide)
    (List.Perm.swap _ _ _)
  ⟨List.Perm.swap _ _ _, h.1, by decide⟩

/-- C15: when `r.Foreign()` is the empty string `GetRelationshipInverse` returns
the zero-value relationship for every snapshot, also when a table with the empty
key holds a relationship named `r.Name`. -/
theorem getRelationshipInverse_empty_foreign (sfx : String) (t : Table)
    (tables : List Table) (r : Relationship) (hempty : r.Foreign = "") :
    Table.GetRelationshipInverse sfx t tables r = Relationship.zero := by
  have hk : (findForeignTable tables r.Foreign).Key = "" := by
    rcases findForeignTable_key tables r.Foreign with h | h
    · rw [h]; exact hempty
    · exact h
  unfold Table.GetRelationshipInverse
  simp only [if_pos hk]

/-- Witness for C15: the only table of `exTablesEmptyKey` has the empty key and
holds `exRelOnEmpty`, which is named like `exRelEmptyForeign`. -/
theorem getRelationshipInverse_empty_foreign_witness :
    exRelEmptyForeign.Foreign = "" ∧
    (∃ u ∈ exTablesEmptyKey, u.Key = "" ∧
      ∃ r2 ∈ u.Relationships, r2.Name = exRelEmptyForeign.Name) ∧
    Table.GetRelationshipInverse "__self_join_reverse" Table.zero exTablesEmptyKey
      exRelEmptyForeign = Relationship.zero :=
  ⟨by decide,
    ⟨_, List.mem_cons_self _ _, by decide, exRelOnEmpty, List.mem_cons_self _ _, by decide⟩,
    getRelationshipInverse_empty_foreign "__self_join_reverse" Table.zero exTablesEmptyKey
      exRelEmptyForeign (by decide)⟩

/-- C16: the `Only` and `Except` lists of `ParseTableFilter(only, except)` have no
duplicates; `Only` is as long as the key list of `only`, `Except` as long as the
list of keys of `except` whose column list has length zero. -/
theorem parseTableFilter_nodup_length (only except : GoMap) :
    (ParseTableFilter only except).Only.Nodup ∧
    (ParseTableFilter only except).Except.Nodup ∧
    (ParseTableFilter only except).Only.length = only.keys.length ∧
    (ParseTableFilter only except).Except.length =
      (except.keys.filter (fun k => decide ((except.get k).elems.length = 0))).length ∧
    ParseTableFilter exThreeMap exThreeMap =
      ⟨["users", "logs", "orders"], ["users", "orders"]⟩ := by
  have hO : (ParseTableFilter only except).Only = only.keys := by
    unfold ParseTableFilter GoMap.keys
    simp only [tableOnlyLoop_eq, List.nil_append]
  have hE : (ParseTableFilter only except).Except =
      except.keys.filter (fun k => decide ((except.get k).elems.length = 0)) := by
    unfold ParseTableFilter GoMap.keys
    simp only [tableExceptLoop_eq, List.nil_append]
    exact filter_map_fst_of_get except.entries except.get
      (fun v => decide (v.elems.length = 0)) (fun e he => goMap_get_of_mem except e he)
  refine ⟨?_, ?_, by rw [hO], by rw [hE], by decide⟩
  · rw [hO]; exact only.nodup
  · rw [hE]; exact List.Nodup.filter _ except.nodup

/-- C17: the keys of the map returned by `ParseColumnFilter(tables, only, except)`
are exactly the elements of `tables`, each once: a key has an entry exactly when
it is listed, whatever the two maps hold. With `orders` listed twice the map has
two entries and none for `*` or `logs`. -/
theorem parseColumnFilter_keys (tables : List String) (only except : GoMap) (k : String) :
    (((ParseColumnFilter tables only except).get k).isSome = true ↔ k ∈ tables) ∧
    (k ∈ (ParseColumnFilter tables only except).entries.map Prod.fst ↔ k ∈ tables) ∧
    ((ParseColumnFilter tables only except).entries.map Prod.fst).Nodup ∧
    (ParseColumnFilter ["orders", "users", "orders"] exOnlyMap exExceptMap).entries.map
      Prod.fst = ["orders", "users"] ∧
    (ParseColumnFilter ["orders", "users", "orders"] exOnlyMap exExceptMap).get "*" = none ∧
    (ParseColumnFilter ["orders", "users", "orders"] exOnlyMap exExceptMap).get "logs" =
      none := by
  have hkeys := columnFilterLoop_keys only except (only.get "*").elems.length
    (except.get "*").elems.length tables
    ⟨(only.get "*").elems ++ (only.get "*").spare,
     (except.get "*").elems ++ (except.get "*").spare, []⟩ (by simp)
  have hmem : k ∈ (ParseColumnFilter tables only except).entries.map Prod.fst ↔
      k ∈ tables := by
    unfold ParseColumnFilter
    rw [hkeys.2 k]
    simp
  refine ⟨?_, hmem, hkeys.1, by decide, by decide, by decide⟩
  rw [← hmem, ← lookup_isSome_iff_mem_keys]
  unfold ColumnFilter.get
  rw [Option.isSome_map']

end Drivers
